import Mathlib

/-!
# find_skills: the command-line driver of the WCRP skill-discovery sampler

A shallow embedding of `src/samples/find_skills.cpp` (`load_dataset` and `main`)
and theorems about it.

Modelling conventions

* `size_t` is a natural number below `2 ^ 64`; every `size_t` addition of the
  source is written with an explicit `% SIZE_MOD`.
* `in >> x` for a `size_t` is `extract`, working on the characters of the file.
* A `std::vector` is a `List`; indexing outside the vector (undefined behaviour
  in the source) makes the embedding return `LoadResult.out_of_range`.
* `resize` and `push_back` throw `std::length_error` when the vector would grow
  beyond its `max_size()`; nothing catches it, so the run ends there
  (`LoadResult.length_error`). The values of `max_size()` belong to the C++
  library, not to the source, and are the parameter `Limits`.
* `assert` is active (the program is built without `NDEBUG`); a failed `assert`
  ends the run with `Outcome.assert_failed`.
* Within `max_size()` the allocator always delivers, and the data file is not
  modified between the two passes `load_dataset` makes over it.
* A `double` is an exact rational, an infinity, or NaN: `main` only compares
  doubles with constants and passes them on, it never does arithmetic on them.
-/

namespace FindSkills

/-! ## Machine integers -/

/-- The number of values of the 64-bit type `size_t`. -/
def SIZE_MOD : Nat := 2 ^ 64

/-- The conversion `(size_t) x` of a signed `int` (two's complement). -/
def to_size_t (x : Int) : Nat := (x % (2 ^ 64 : Int)).toNat

/-! ## Formatted input and output of `size_t` -/

/-- The characters `std::isspace` accepts in the "C" locale. -/
def isspace (c : Char) : Bool :=
  c.toNat = 32 || (9 ≤ c.toNat && c.toNat ≤ 13)

/-- The characters `0` to `9`. -/
def isdigit (c : Char) : Bool :=
  48 ≤ c.toNat && c.toNat ≤ 57

/-- The value of a digit sequence read left to right in base ten. -/
def digits_value (ds : List Char) : Nat :=
  ds.foldl (fun acc c => 10 * acc + (c.toNat - 48)) 0

/-- The optional sign in front of a number: one `-` or `+` is skipped. -/
def skip_sign (s : List Char) : List Char :=
  if s.head? == some '-' || s.head? == some '+' then s.tail else s

/-- The extraction `in >> x` for `size_t x` on a stream in a good state:
leading white space is skipped, an optional sign is read, then the longest run
of decimal digits. The extraction fails (`none`, the stream's failbit) when no
digit follows or when the digits do not fit in 64 bits; a leading `-` negates
the value in `size_t` arithmetic. On success the value and the unread rest of
the stream are returned. -/
def extract (s : List Char) : Option (Nat × List Char) :=
  let s1 := s.dropWhile isspace
  let negative := s1.head? == some '-'
  let s2 := skip_sign s1
  let ds := s2.takeWhile isdigit
  if ds.isEmpty then none
  else if SIZE_MOD ≤ digits_value ds then none
  else some (if negative then (SIZE_MOD - digits_value ds) % SIZE_MOD else digits_value ds,
             s2.dropWhile isdigit)

/-- Worker of `decimal`: pushes the digits of `n`, least significant first,
in front of `acc`. -/
def decimal_aux : Nat → Nat → List Char → List Char
  | 0, _, acc => acc
  | fuel + 1, n, acc =>
    if n / 10 = 0 then Char.ofNat (48 + n % 10) :: acc
    else decimal_aux fuel (n / 10) (Char.ofNat (48 + n % 10) :: acc)

/-- The insertion `out << n` for `size_t n`: the decimal digits of `n`, without
leading zeros (`0` is written as the single digit `0`). -/
def decimal (n : Nat) : List Char := decimal_aux (n + 1) n []

/-! ## The data file -/

/-- One line of the data file: student id, item id, skill id, recall success
(the field is called `recalled`, as `recall` is a reserved word). -/
structure Record where
  student : Nat
  item : Nat
  skill : Nat
  recalled : Nat
deriving DecidableEq

/-- The loop condition `in >> student >> item >> skill >> recall`: four
extractions in a row; once one fails the stream stays failed. -/
def read_record (s : List Char) : Option (Record × List Char) :=
  match extract s with
  | none => none
  | some (student, s1) =>
    match extract s1 with
    | none => none
    | some (item, s2) =>
      match extract s2 with
      | none => none
      | some (skill, s3) =>
        match extract s3 with
        | none => none
        | some (recalled, s4) => some (⟨student, item, skill, recalled⟩, s4)

/-- The records `while (in >> student >> item >> skill >> recall)` iterates
over, with a bound on the number of iterations. -/
def read_records_fuel : Nat → List Char → List Record
  | 0, _ => []
  | fuel + 1, s =>
    match read_record s with
    | none => []
    | some (r, rest) => r :: read_records_fuel fuel rest

/-- The records `while (in >> student >> item >> skill >> recall)` iterates
over: reading stops at the first record that cannot be extracted, be it the
end of the file or any other text. Every record uses at least one character,
so `s.length` iterations are enough (`read_records_fuel_stable`). -/
def read_records (s : List Char) : List Record := read_records_fuel s.length s

/-- A record written as a line of the tab delimited data file. -/
def render_record (r : Record) : List Char :=
  decimal r.student ++ '\t' :: (decimal r.item ++ '\t' :: (decimal r.skill ++
    '\t' :: (decimal r.recalled ++ ['\n'])))

/-- A list of records written as a tab delimited data file. -/
def render_records : List Record → List Char
  | [] => []
  | r :: rs => render_record r ++ render_records rs

/-- A record whose four fields are `size_t` values. -/
def Record.well_formed (r : Record) : Prop :=
  r.student < SIZE_MOD ∧ r.item < SIZE_MOD ∧ r.skill < SIZE_MOD ∧ r.recalled < SIZE_MOD

instance (r : Record) : Decidable r.well_formed := by
  unfold Record.well_formed; infer_instance

/-! ## `load_dataset` -/

/-- The three counters of the first pass. -/
structure Counts where
  num_students : Nat
  num_items : Nat
  num_skills : Nat
deriving DecidableEq

/-- The body of the first loop of `load_dataset` (lines 50 to 52). -/
def count_record (c : Counts) (r : Record) : Counts :=
  { num_students := max ((r.student + 1) % SIZE_MOD) c.num_students
    num_items := max ((r.item + 1) % SIZE_MOD) c.num_items
    num_skills := max ((r.skill + 1) % SIZE_MOD) c.num_skills }

/-- The first loop of `load_dataset`, started from zero counters. -/
def count_records (recs : List Record) : Counts :=
  recs.foldl count_record ⟨0, 0, 0⟩

/-- The vectors `load_dataset` fills. -/
structure Tables where
  provided_skill_assignments : List Nat
  recall_sequences : List (List Bool)
  item_sequences : List (List Nat)
deriving DecidableEq

/-- The values of `max_size()` for the four vector types `load_dataset` uses.
They are constants of the C++ standard library the program is built with. -/
structure Limits where
  /-- The value of `std::vector<size_t>::max_size()`. -/
  max_entries : Nat
  /-- The value of `std::vector<bool>::max_size()`. -/
  max_bools : Nat
  /-- The value of `std::vector<std::vector<bool>>::max_size()`. -/
  max_recall_rows : Nat
  /-- The value of `std::vector<std::vector<size_t>>::max_size()`. -/
  max_item_rows : Nat
deriving DecidableEq

/-- The member `std::vector::resize(n, fill)`: `none` when the vector has to
grow beyond `max_size` (`std::length_error` is thrown). -/
def resize {α : Type} (max_size : Nat) (v : List α) (n : Nat) (fill : α) : Option (List α) :=
  if v.length < n ∧ max_size < n then none
  else some (v.take n ++ List.replicate (n - v.length) fill)

/-- The member `std::vector::push_back(x)`: `none` when the vector already has
`max_size` elements (`std::length_error` is thrown). -/
def push_back {α : Type} (max_size : Nat) (v : List α) (x : α) : Option (List α) :=
  if max_size ≤ v.length then none else some (v ++ [x])

/-- The ways the second loop of `load_dataset` ends. -/
inductive Stored where
  | ok (t : Tables)
  | out_of_range
  | length_error
deriving DecidableEq

/-- The body of the second loop of `load_dataset` (lines 65 to 67), statement
by statement: `out_of_range` when a subscript is outside its vector,
`length_error` when a `push_back` throws. -/
def store_record (lim : Limits) (t : Tables) (r : Record) : Stored :=
  match t.recall_sequences[r.student]? with
  | none => Stored.out_of_range
  | some recalls =>
    match push_back lim.max_bools recalls (decide (r.recalled ≠ 0)) with
    | none => Stored.length_error
    | some recalls1 =>
      match t.item_sequences[r.student]? with
      | none => Stored.out_of_range
      | some items =>
        match push_back lim.max_entries items r.item with
        | none => Stored.length_error
        | some items1 =>
          if r.item < t.provided_skill_assignments.length then
            Stored.ok
              { provided_skill_assignments := t.provided_skill_assignments.set r.item r.skill
                recall_sequences := t.recall_sequences.set r.student recalls1
                item_sequences := t.item_sequences.set r.student items1 }
          else Stored.out_of_range

/-- The second loop of `load_dataset`. -/
def store_records (lim : Limits) : Tables → List Record → Stored
  | t, [] => Stored.ok t
  | t, r :: rs =>
    match store_record lim t r with
    | Stored.ok t1 => store_records lim t1 rs
    | Stored.out_of_range => Stored.out_of_range
    | Stored.length_error => Stored.length_error

/-- What `load_dataset` leaves in its reference parameters. -/
structure Dataset where
  tables : Tables
  counts : Counts
deriving DecidableEq

/-- The ways a call of `load_dataset` ends. -/
inductive LoadResult where
  | open_failed
  | length_error
  | out_of_range
  | loaded (d : Dataset)
deriving DecidableEq

/-- The part of `load_dataset` after the file has been opened, as a function of
the records both loops iterate over and of the vectors passed in: the first
pass, the three calls of `resize` (lines 58 to 60, in that order), the second
pass. -/
def load_records (lim : Limits) (recs : List Record) (t : Tables) : LoadResult :=
  let c := count_records recs
  match resize lim.max_entries t.provided_skill_assignments c.num_items (SIZE_MOD - 1) with
  | none => LoadResult.length_error
  | some skills =>
    match resize lim.max_recall_rows t.recall_sequences c.num_students [] with
    | none => LoadResult.length_error
    | some recalls =>
      match resize lim.max_item_rows t.item_sequences c.num_students [] with
      | none => LoadResult.length_error
      | some items =>
        match store_records lim ⟨skills, recalls, items⟩ recs with
        | Stored.ok t1 => LoadResult.loaded ⟨t1, c⟩
        | Stored.out_of_range => LoadResult.out_of_range
        | Stored.length_error => LoadResult.length_error

/-- The function `load_dataset`; `file` is the content of the file called
`filename`, or `none` when it cannot be opened. -/
def load_dataset (lim : Limits) (file : Option (List Char)) (t : Tables) : LoadResult :=
  match file with
  | none => LoadResult.open_failed
  | some s => load_records lim (read_records s) t

/-- The empty vectors `main` declares before it calls `load_dataset`. -/
def empty_tables : Tables := ⟨[], [], []⟩

/-! ### The vocabulary of the claims about `load_dataset` -/

/-- The records whose student field is `s`, in file order. -/
def records_of_student (s : Nat) (recs : List Record) : List Record :=
  recs.filter (fun r => decide (r.student = s))

/-- The records whose item field is `i`, in file order. -/
def records_of_item (i : Nat) (recs : List Record) : List Record :=
  recs.filter (fun r => decide (r.item = i))

/-- The recall outcome of a record: true iff the recall field is nonzero. -/
def Record.outcome (r : Record) : Bool := decide (r.recalled ≠ 0)

/-- The value `(size_t) -1` that `provided_skill_assignments` is filled with. -/
def SENTINEL : Nat := SIZE_MOD - 1

/-- The student id and the item id of the record can be subscripts of the
vectors they index: they are not `2 ^ 64 - 1` (so `id + 1` does not wrap
around) and they are below `max_size()` of those vectors. -/
def Record.fits (lim : Limits) (r : Record) : Prop :=
  r.student < SIZE_MOD - 1 ∧ r.student < lim.max_recall_rows ∧ r.student < lim.max_item_rows ∧
  r.item < SIZE_MOD - 1 ∧ r.item < lim.max_entries

instance (lim : Limits) (r : Record) : Decidable (r.fits lim) := by
  unfold Record.fits; infer_instance

/-- The records are within the capacity of the vectors of `load_dataset`: every
record fits, and no student has more records than a row can hold. -/
def dataset_fits (lim : Limits) (recs : List Record) : Prop :=
  (∀ r ∈ recs, r.fits lim) ∧
  (∀ s, (records_of_student s recs).length ≤ lim.max_bools ∧
    (records_of_student s recs).length ≤ lim.max_entries)

/-! ## The command line -/

/-- A value of type `double`: a finite value (an exact rational), an infinity,
or NaN. -/
inductive Double where
  | finite (q : ℚ)
  | pos_inf
  | neg_inf
  | nan
deriving DecidableEq

/-- The comparison `a <= b` of two doubles (false when either is NaN). -/
def Double.le : Double → Double → Bool
  | Double.nan, _ => false
  | _, Double.nan => false
  | Double.neg_inf, _ => true
  | _, Double.pos_inf => true
  | Double.finite a, Double.finite b => decide (a ≤ b)
  | _, _ => false

/-- The comparison `a >= b` of two doubles. -/
def Double.ge (a b : Double) : Bool := Double.le b a

/-- The command line after `po::parse_command_line`, `po::store` and
`po::notify` have succeeded: `argc`, and for every option whether it was given
and with which value. The three `int` options carry their default values when
they are not given. -/
structure Options where
  argc : Nat
  help : Bool
  datafile : String
  savefile : String
  map_estimate : Bool
  num_iterations : Int
  burn : Int
  fix_alpha_prime : Option Double
  fix_beta : Option Double
  num_subsamples : Int

/-- What a run of `main` reads from its surroundings besides the command line:
the clock (`time(NULL)`) and the files that can be opened for reading. -/
structure World where
  time : Nat
  files : String → Option (List Char)

/-! ## The sampler -/

/-- The arguments `main` gives to the constructor of `MixtureWCRP`; `seed` is
the seed of the `Random` generator `main` constructs and passes on. -/
structure ModelArgs where
  seed : Nat
  train_students : List Nat
  recall_sequences : List (List Bool)
  item_sequences : List (List Nat)
  provided_skill_assignments : List Nat
  init_beta : Double
  init_alpha_prime : Double
  num_students : Nat
  num_items : Nat
  num_subsamples : Nat
deriving DecidableEq

/-- The arguments `main` gives to `run_mcmc`. -/
structure McmcArgs where
  num_iterations : Nat
  burn : Nat
  infer_beta : Bool
  infer_alpha_prime : Bool
deriving DecidableEq

/-- What `main` reads back from the model after `run_mcmc`. -/
structure ModelOutput where
  most_likely_skill_assignments : List Nat
  skill_assignments : List (List Nat)
deriving DecidableEq

/-- Modelled from the spec: the class `MixtureWCRP` and the `Random` generator
(`MixtureWCRP.hpp` and `common.hpp` are not among the sources). The spec makes
the sampler "fully deterministic given a fixed random-source seed and fixed
iteration order", with the random source "the only shared mutable resource",
so constructing the model, running `run_mcmc` and reading the assignments back
is a function of the constructor arguments (the seed among them) and of the
arguments of `run_mcmc`. Nothing else about the sampler is assumed. -/
structure MixtureWCRP where
  run : ModelArgs → McmcArgs → ModelOutput

/-! ## Saving the assignments -/

/-- The inner loop of lines 158 to 162 and 169 to 173: the `num_items` entries
of `v`, each followed by a space, the last one by a newline. It runs only when
`v.size() == num_items`, so `v.at(item)` never throws; `num_items - 1` is
evaluated only when `0 < num_items`. -/
def write_row (num_items : Nat) (v : List Nat) : List Char :=
  (List.range num_items).foldl
    (fun out item => out ++ decimal (v.getD item 0) ++
      (if item = num_items - 1 then ['\n'] else [' '])) []

/-- The way saving ends, with the text that has reached `out_skills`. -/
inductive SaveResult where
  | saved (text : List Char)
  | assert_failed (text : List Char)
deriving DecidableEq

/-- The loop of lines 167 to 174 over the samples, `out` being the text written
so far. -/
def write_samples (num_items : Nat) : List (List Nat) → List Char → SaveResult
  | [], out => SaveResult.saved out
  | v :: vs, out =>
    if v.length = num_items then write_samples num_items vs (out ++ write_row num_items v)
    else SaveResult.assert_failed out

/-- Lines 154 to 175 of `main`: the text inserted into `out_skills`. -/
def save (map_estimate : Bool) (num_items : Nat) (m : ModelOutput) : SaveResult :=
  if map_estimate then
    if m.most_likely_skill_assignments.length = num_items then
      SaveResult.saved (write_row num_items m.most_likely_skill_assignments)
    else SaveResult.assert_failed []
  else
    if m.skill_assignments.isEmpty then SaveResult.assert_failed []
    else write_samples num_items m.skill_assignments []

/-- Reading back: the text cut at every `sep`. -/
def split_on (sep : Char) : List Char → List (List Char)
  | [] => [[]]
  | c :: cs =>
    if c = sep then [] :: split_on sep cs
    else
      match split_on sep cs with
      | [] => [[c]]
      | w :: ws => (c :: w) :: ws

/-- Reading back: the text is split into lines at the newlines (the text after
the last newline is dropped), every line is split at the spaces, and every
piece is read as a decimal number. -/
def parse_saved (text : List Char) : List (List Nat) :=
  (split_on '\n' text).dropLast.map (fun line => (split_on ' ' line).map digits_value)

/-- The line the spec asks for: the entries of `v` in decimal, joined by single
spaces and ended by one newline. -/
def spec_line (v : List Nat) : List Char :=
  [' '].intercalate (v.map decimal) ++ ['\n']

/-- The text the spec asks for: one `spec_line` per vector, in list order. -/
def spec_text (vs : List (List Nat)) : List Char :=
  (vs.map spec_line).flatten

/-! ## `main` -/

/-- The `assert`s of `main`, in the order they are met. -/
inductive AssertSite where
  | alpha_prime_nonneg
  | beta_in_unit_interval
  | num_iterations_nonneg
  | num_iterations_exceeds_burn
  | dataset_nonempty
deriving DecidableEq

/-- The ways a run of `main` ends. -/
inductive Outcome where
  | help_printed
  | assert_failed (site : AssertSite)
  | open_failed
  | length_error
  | out_of_range
  | model_run (ctor : ModelArgs) (mcmc : McmcArgs) (saved : SaveResult)
deriving DecidableEq

/-- Lines 107 to 115: `none` when the `assert` fails, else `init_alpha_prime`
and `infer_alpha_prime`. -/
def alpha_prime_setting (o : Options) : Option (Double × Bool) :=
  match o.fix_alpha_prime with
  | some a => if Double.ge a (Double.finite 0) then some (a, false) else none
  | none => some (Double.finite (-1), true)

/-- Lines 123 to 131: `none` when the `assert` fails, else `init_beta` and
`infer_beta`. -/
def beta_setting (o : Options) : Option (Double × Bool) :=
  match o.fix_beta with
  | some b =>
    if Double.ge b (Double.finite 0) && Double.le b (Double.finite 1) then some (b, false)
    else none
  | none => some (Double.finite (1 / 2), true)

/-- The arguments of the constructor of `MixtureWCRP` as line 149 assembles
them; `train_students` holds every student index, and the generator is the one
seeded with `time(NULL)` on line 121. -/
def model_args (w : World) (o : Options) (d : Dataset) (init_beta init_alpha_prime : Double) :
    ModelArgs :=
  { seed := w.time
    train_students := List.range d.counts.num_students
    recall_sequences := d.tables.recall_sequences
    item_sequences := d.tables.item_sequences
    provided_skill_assignments := d.tables.provided_skill_assignments
    init_beta := init_beta
    init_alpha_prime := init_alpha_prime
    num_students := d.counts.num_students
    num_items := d.counts.num_items
    num_subsamples := to_size_t o.num_subsamples }

/-- The function `main`, from the parsed command line on. -/
def main (lim : Limits) (core : MixtureWCRP) (w : World) (o : Options) : Outcome :=
  if o.argc = 1 || o.help then Outcome.help_printed
  else
    match alpha_prime_setting o with
    | none => Outcome.assert_failed AssertSite.alpha_prime_nonneg
    | some (init_alpha_prime, infer_alpha_prime) =>
      let num_iterations := to_size_t o.num_iterations
      let burn := to_size_t o.burn
      match beta_setting o with
      | none => Outcome.assert_failed AssertSite.beta_in_unit_interval
      | some (init_beta, infer_beta) =>
        if ¬ (0 ≤ num_iterations) then Outcome.assert_failed AssertSite.num_iterations_nonneg
        else if ¬ (burn < num_iterations) then
          Outcome.assert_failed AssertSite.num_iterations_exceeds_burn
        else
          match load_dataset lim (w.files o.datafile) empty_tables with
          | LoadResult.open_failed => Outcome.open_failed
          | LoadResult.length_error => Outcome.length_error
          | LoadResult.out_of_range => Outcome.out_of_range
          | LoadResult.loaded d =>
            if ¬ (0 < d.counts.num_students ∧ 0 < d.counts.num_items) then
              Outcome.assert_failed AssertSite.dataset_nonempty
            else
              let ctor := model_args w o d init_beta init_alpha_prime
              let mcmc : McmcArgs := ⟨num_iterations, burn, infer_beta, infer_alpha_prime⟩
              Outcome.model_run ctor mcmc
                (save o.map_estimate d.counts.num_items (core.run ctor mcmc))

/-- Whether the run got as far as calling `load_dataset`. -/
def Outcome.called_load_dataset : Outcome → Bool
  | Outcome.help_printed => false
  | Outcome.assert_failed site => decide (site = AssertSite.dataset_nonempty)
  | Outcome.open_failed => true
  | Outcome.length_error => true
  | Outcome.out_of_range => true
  | Outcome.model_run _ _ _ => true

/-- Whether the run got as far as constructing the model. -/
def Outcome.constructed_model : Outcome → Bool
  | Outcome.model_run _ _ _ => true
  | _ => false

/-- Whether the run ended in a failed `assert` of `main`. -/
def Outcome.aborted : Outcome → Bool
  | Outcome.assert_failed _ => true
  | _ => false

/-- The arguments the constructor of the model received, if the run got there. -/
def Outcome.ctor_args : Outcome → Option ModelArgs
  | Outcome.model_run ctor _ _ => some ctor
  | _ => none

/-- The arguments `run_mcmc` received, if the run got there. -/
def Outcome.mcmc_args : Outcome → Option McmcArgs
  | Outcome.model_run _ mcmc _ => some mcmc
  | _ => none

/-! ## Concrete runs -/

/-- The values of `max_size()` in libstdc++ on a 64-bit platform: it is
`PTRDIFF_MAX / sizeof(T)` with element sizes of `8`, `40` and `24` bytes, and
`PTRDIFF_MAX - 63` for `vector<bool>`. -/
def lp64_limits : Limits :=
  { max_entries := (2 ^ 63 - 1) / 8
    max_bools := 2 ^ 63 - 64
    max_recall_rows := (2 ^ 63 - 1) / 40
    max_item_rows := (2 ^ 63 - 1) / 24 }

/-- A sampler for concrete runs: it puts every item in skill `0`. -/
def sample_core : MixtureWCRP :=
  ⟨fun c _ => ⟨List.replicate c.num_items 0, [List.replicate c.num_items 0]⟩⟩

/-- A command line that names a data file and a save file and leaves every
other option at its default. -/
def sample_options : Options :=
  { argc := 5, help := false, datafile := "data.txt", savefile := "skills.txt",
    map_estimate := false, num_iterations := 200, burn := 100,
    fix_alpha_prime := none, fix_beta := none, num_subsamples := 2000 }

/-- A world in which every file that is opened has the content `text`. -/
def sample_world (text : String) : World := ⟨0, fun _ => some text.toList⟩

theorem digit_char_toNat : ∀ d, d < 10 → (Char.ofNat (48 + d)).toNat = 48 + d := by
  decide

theorem digit_char_isdigit : ∀ d, d < 10 → isdigit (Char.ofNat (48 + d)) = true := by
  decide

theorem isdigit_not_isspace (c : Char) (h : isdigit c = true) : isspace c = false := by
  unfold isdigit at h
  unfold isspace
  simp only [Bool.and_eq_true, decide_eq_true_eq] at h
  simp only [Bool.or_eq_false_iff, Bool.and_eq_false_iff, decide_eq_false_iff_not]
  omega

theorem isdigit_not_sign (c : Char) (h : isdigit c = true) : c ≠ '-' ∧ c ≠ '+' := by
  constructor
  · rintro rfl
    exact absurd h (by decide)
  · rintro rfl
    exact absurd h (by decide)

theorem isdigit_not_separator (c : Char) (h : isdigit c = true) : c ≠ ' ' ∧ c ≠ '\n' := by
  constructor
  · rintro rfl
    exact absurd h (by decide)
  · rintro rfl
    exact absurd h (by decide)

theorem digits_value_append (xs : List Char) (c : Char) :
    digits_value (xs ++ [c]) = 10 * digits_value xs + (c.toNat - 48) := by
  simp [digits_value, List.foldl_append]

theorem decimal_aux_append (n : Nat) :
    ∀ fuel acc, n < fuel → decimal_aux fuel n acc = decimal_aux (n + 1) n [] ++ acc := by
  induction n using Nat.strong_induction_on with
  | _ n ih =>
    intro fuel acc hf
    obtain ⟨k, rfl⟩ : ∃ k, fuel = k + 1 := ⟨fuel - 1, by omega⟩
    by_cases h0 : n / 10 = 0
    · simp [decimal_aux, h0]
    · have hlt : n / 10 < n := Nat.div_lt_self (by omega) (by decide)
      have hn : ∃ m, n = m + 1 := ⟨n - 1, by omega⟩
      obtain ⟨m, hm⟩ := hn
      have e1 : decimal_aux (k + 1) n acc
          = decimal_aux k (n / 10) (Char.ofNat (48 + n % 10) :: acc) := by
        simp [decimal_aux, h0]
      have e2 : decimal_aux (n + 1) n []
          = decimal_aux n (n / 10) [Char.ofNat (48 + n % 10)] := by
        simp [decimal_aux, h0]
      rw [e1, e2, ih (n / 10) hlt k _ (by omega), ih (n / 10) hlt n _ hlt]
      simp

theorem decimal_lt_ten (n : Nat) (h : n < 10) : decimal n = [Char.ofNat (48 + n)] := by
  have h0 : n / 10 = 0 := Nat.div_eq_of_lt h
  simp [decimal, decimal_aux, h0, Nat.mod_eq_of_lt h]

theorem decimal_ge_ten (n : Nat) (h : 10 ≤ n) :
    decimal n = decimal (n / 10) ++ [Char.ofNat (48 + n % 10)] := by
  have h0 : n / 10 ≠ 0 := by
    have := Nat.div_pos h (by decide : 0 < 10)
    omega
  have hlt : n / 10 < n := Nat.div_lt_self (by omega) (by decide)
  have e2 : decimal_aux (n + 1) n []
      = decimal_aux n (n / 10) [Char.ofNat (48 + n % 10)] := by
    simp [decimal_aux, h0]
  unfold decimal
  rw [e2, decimal_aux_append (n / 10) n _ hlt]

/-- Reading the decimal digits of `n` gives `n` back. -/
theorem digits_value_decimal (n : Nat) : digits_value (decimal n) = n := by
  induction n using Nat.strong_induction_on with
  | _ n ih =>
    by_cases h : n < 10
    · rw [decimal_lt_ten n h]
      simp [digits_value, digit_char_toNat n h]
    · have hge : 10 ≤ n := by omega
      rw [decimal_ge_ten n hge, digits_value_append, ih (n / 10) (Nat.div_lt_self (by omega) (by decide)),
        digit_char_toNat _ (Nat.mod_lt n (by decide))]
      omega

/-- The decimal digits of `n` are digits. -/
theorem decimal_all_digits (n : Nat) : ∀ c ∈ decimal n, isdigit c = true := by
  induction n using Nat.strong_induction_on with
  | _ n ih =>
    by_cases h : n < 10
    · rw [decimal_lt_ten n h]
      intro c hc
      simp at hc
      subst hc
      exact digit_char_isdigit n h
    · have hge : 10 ≤ n := by omega
      rw [decimal_ge_ten n hge]
      intro c hc
      rw [List.mem_append] at hc
      cases hc with
      | inl hc => exact ih (n / 10) (Nat.div_lt_self (by omega) (by decide)) c hc
      | inr hc =>
        simp at hc
        subst hc
        exact digit_char_isdigit _ (Nat.mod_lt n (by decide))

theorem decimal_ne_nil (n : Nat) : decimal n ≠ [] := by
  by_cases h : n < 10
  · rw [decimal_lt_ten n h]; simp
  · rw [decimal_ge_ten n (by omega)]; simp

theorem takeWhile_digits_append (ds rest : List Char) (hds : ∀ c ∈ ds, isdigit c = true)
    (hrest : ∀ c, rest.head? = some c → isdigit c = false) :
    (ds ++ rest).takeWhile isdigit = ds ∧ (ds ++ rest).dropWhile isdigit = rest := by
  induction ds with
  | nil =>
    cases rest with
    | nil => simp
    | cons c cs =>
      have := hrest c rfl
      simp [List.takeWhile, List.dropWhile, this]
  | cons d ds ih =>
    have hd := hds d (List.mem_cons_self _ _)
    have := ih (fun c hc => hds c (List.mem_cons_of_mem _ hc))
    simp [List.takeWhile, List.dropWhile, hd, this]

/-- Extracting a `size_t` from its own decimal digits, followed by anything
that does not start with a digit, gives the number and leaves what follows. -/
theorem extract_decimal (n : Nat) (rest : List Char) (hn : n < SIZE_MOD)
    (hrest : ∀ c, rest.head? = some c → isdigit c = false) :
    extract (decimal n ++ rest) = some (n, rest) := by
  obtain ⟨c, cs, hcs⟩ : ∃ c cs, decimal n = c :: cs := by
    cases h : decimal n with
    | nil => exact absurd h (decimal_ne_nil n)
    | cons c cs => exact ⟨c, cs, rfl⟩
  have hc : isdigit c = true := decimal_all_digits n c (by rw [hcs]; exact List.mem_cons_self _ _)
  have hsp := isdigit_not_isspace c hc
  have hsg := isdigit_not_sign c hc
  have htd := takeWhile_digits_append (decimal n) rest (decimal_all_digits n) hrest
  have hdrop : (decimal n ++ rest).dropWhile isspace = decimal n ++ rest := by
    rw [hcs]; simp [List.dropWhile, hsp]
  have hhead : (decimal n ++ rest).head? = some c := by rw [hcs]; rfl
  have hskip : skip_sign (decimal n ++ rest) = decimal n ++ rest := by
    unfold skip_sign
    have h1 : (some c == some '-') = false := by simpa using hsg.1
    have h2 : (some c == some '+') = false := by simpa using hsg.2
    simp [hhead, h1, h2]
  have hminus : ((decimal n ++ rest).head? == some '-') = false := by
    rw [hhead]; simpa using hsg.1
  have hne : (decimal n).isEmpty = false := by rw [hcs]; rfl
  unfold extract
  simp only [hdrop, hskip, htd.1, htd.2, digits_value_decimal, hminus, hne]
  simp [Nat.not_le.mpr hn]

/-! ## Reading the data file -/

theorem tail_length_le (s : List Char) : s.tail.length ≤ s.length := by
  cases s <;> simp

theorem dropWhile_length_le (p : Char → Bool) (s : List Char) :
    (s.dropWhile p).length ≤ s.length := by
  induction s with
  | nil => simp
  | cons c cs ih =>
    simp only [List.dropWhile]
    split
    · simp only [List.length_cons]; omega
    · simp

theorem takeWhile_dropWhile_length (p : Char → Bool) (s : List Char) :
    (s.takeWhile p).length + (s.dropWhile p).length = s.length := by
  induction s with
  | nil => simp
  | cons c cs ih =>
    by_cases h : p c = true
    · simp only [List.takeWhile, List.dropWhile, h, List.length_cons]; omega
    · simp [List.takeWhile, List.dropWhile, h]

theorem skip_sign_length_le (s : List Char) : (skip_sign s).length ≤ s.length := by
  unfold skip_sign
  split
  · exact tail_length_le s
  · exact le_refl _

/-- What a successful extraction has done. -/
theorem extract_inv {s rest : List Char} {v : Nat} (h : extract s = some (v, rest)) :
    ∃ s2 : List Char, s2.length ≤ s.length ∧ s2.takeWhile isdigit ≠ [] ∧
      rest = s2.dropWhile isdigit ∧ v < SIZE_MOD := by
  refine ⟨skip_sign (s.dropWhile isspace),
    le_trans (skip_sign_length_le _) (dropWhile_length_le _ _), ?_⟩
  unfold extract at h
  simp only at h
  generalize skip_sign (s.dropWhile isspace) = s2 at h ⊢
  by_cases he : (s2.takeWhile isdigit).isEmpty = true
  · simp [he] at h
  · by_cases hm : SIZE_MOD ≤ digits_value (s2.takeWhile isdigit)
    · simp [he, hm] at h
    · simp only [he, hm, if_false, Bool.false_eq_true, Option.some.injEq, Prod.mk.injEq] at h
      obtain ⟨hv, hrest⟩ := h
      refine ⟨?_, hrest.symm, ?_⟩
      · intro hnil
        rw [hnil] at he
        exact he rfl
      · rw [← hv]
        split
        · exact Nat.mod_lt _ (by decide)
        · omega

/-- A successful extraction uses at least one character. -/
theorem extract_length_lt {s rest : List Char} {v : Nat} (h : extract s = some (v, rest)) :
    rest.length < s.length := by
  obtain ⟨s2, h2, hne, hrest, _⟩ := extract_inv h
  have h3 := takeWhile_dropWhile_length isdigit s2
  have h4 : 0 < (s2.takeWhile isdigit).length := List.length_pos.mpr hne
  rw [hrest]
  omega

/-- An extracted value is a `size_t`. -/
theorem extract_lt {s rest : List Char} {v : Nat} (h : extract s = some (v, rest)) :
    v < SIZE_MOD := by
  obtain ⟨_, _, _, _, hv⟩ := extract_inv h
  exact hv

theorem read_record_inv {s rest : List Char} {r : Record} (h : read_record s = some (r, rest)) :
    ∃ s1 s2 s3, extract s = some (r.student, s1) ∧ extract s1 = some (r.item, s2) ∧
      extract s2 = some (r.skill, s3) ∧ extract s3 = some (r.recalled, rest) := by
  unfold read_record at h
  cases h1 : extract s with
  | none => simp [h1] at h
  | some p1 =>
    obtain ⟨a, s1⟩ := p1
    cases h2 : extract s1 with
    | none => simp [h1, h2] at h
    | some p2 =>
      obtain ⟨b, s2⟩ := p2
      cases h3 : extract s2 with
      | none => simp [h1, h2, h3] at h
      | some p3 =>
        obtain ⟨c, s3⟩ := p3
        cases h4 : extract s3 with
        | none => simp [h1, h2, h3, h4] at h
        | some p4 =>
          obtain ⟨d, s4⟩ := p4
          simp [h1, h2, h3, h4] at h
          obtain ⟨rfl, rfl⟩ := h
          exact ⟨s1, s2, s3, rfl, h2, h3, h4⟩

/-- A record that was read used at least one character. -/
theorem read_record_length_lt {s rest : List Char} {r : Record}
    (h : read_record s = some (r, rest)) : rest.length < s.length := by
  obtain ⟨s1, s2, s3, h1, h2, h3, h4⟩ := read_record_inv h
  have := extract_length_lt h1
  have := extract_length_lt h2
  have := extract_length_lt h3
  have := extract_length_lt h4
  omega

/-- A record that was read has four `size_t` fields. -/
theorem read_record_well_formed {s rest : List Char} {r : Record}
    (h : read_record s = some (r, rest)) : r.well_formed := by
  obtain ⟨s1, s2, s3, h1, h2, h3, h4⟩ := read_record_inv h
  exact ⟨extract_lt h1, extract_lt h2, extract_lt h3, extract_lt h4⟩

/-- The reading loop never runs out of iterations: any bound from the length
of the text on gives the same records. -/
theorem read_records_fuel_stable :
    ∀ (fuel : Nat) (s : List Char), s.length ≤ fuel →
      read_records_fuel fuel s = read_records_fuel s.length s := by
  intro fuel
  induction fuel using Nat.strong_induction_on with
  | _ fuel ih =>
    intro s hs
    cases hr : read_record s with
    | none =>
      have e1 : read_records_fuel fuel s = [] := by
        cases fuel <;> simp [read_records_fuel, hr]
      have e2 : read_records_fuel s.length s = [] := by
        cases s.length <;> simp [read_records_fuel, hr]
      rw [e1, e2]
    | some p =>
      obtain ⟨r, rest⟩ := p
      have hlt := read_record_length_lt hr
      obtain ⟨k, rfl⟩ : ∃ k, fuel = k + 1 := ⟨fuel - 1, by omega⟩
      obtain ⟨m, hm⟩ : ∃ m, s.length = m + 1 := ⟨s.length - 1, by omega⟩
      rw [hm]
      simp only [read_records_fuel, hr]
      rw [ih k (by omega) rest (by omega)]
      by_cases hmk : m = k
      · subst hmk; rw [ih m (by omega) rest (by omega)]
      · rw [ih m (by omega) rest (by omega)]

/-- The reading loop, one iteration at a time. -/
theorem read_records_step (s : List Char) :
    read_records s =
      match read_record s with
      | none => []
      | some (r, rest) => r :: read_records rest := by
  unfold read_records
  cases hr : read_record s with
  | none => cases s.length <;> simp [read_records_fuel, hr]
  | some p =>
    obtain ⟨r, rest⟩ := p
    have hlt := read_record_length_lt hr
    obtain ⟨m, hm⟩ : ∃ m, s.length = m + 1 := ⟨s.length - 1, by omega⟩
    rw [hm]
    simp only [read_records_fuel, hr]
    rw [read_records_fuel_stable m rest (by omega)]

/-- Every record the loops iterate over has four `size_t` fields. -/
theorem read_records_well_formed (s : List Char) : ∀ r ∈ read_records s, r.well_formed := by
  generalize hn : s.length = n
  induction n using Nat.strong_induction_on generalizing s with
  | _ n ih =>
    rw [read_records_step]
    cases hr : read_record s with
    | none => simp
    | some p =>
      obtain ⟨r, rest⟩ := p
      intro r1 hr1
      simp only [List.mem_cons] at hr1
      cases hr1 with
      | inl h => subst h; exact read_record_well_formed hr
      | inr h =>
        exact ih rest.length (by have := read_record_length_lt hr; omega) rest rfl r1 h

theorem extract_skip_space (c : Char) (t : List Char) (hc : isspace c = true) :
    extract (c :: t) = extract t := by
  have : (c :: t).dropWhile isspace = t.dropWhile isspace := by
    simp [List.dropWhile, hc]
  unfold extract
  rw [this]

theorem read_records_skip_space (c : Char) (t : List Char) (hc : isspace c = true) :
    read_records (c :: t) = read_records t := by
  have : read_record (c :: t) = read_record t := by
    unfold read_record
    rw [extract_skip_space c t hc]
  rw [read_records_step, this, ← read_records_step]

/-- A rendered record is read back as itself; the newline that ends the line
is left in the stream. -/
theorem read_record_render (r : Record) (rest : List Char) (hr : r.well_formed) :
    read_record (render_record r ++ rest) = some (r, '\n' :: rest) := by
  obtain ⟨h1, h2, h3, h4⟩ := hr
  have e4 : extract (decimal r.recalled ++ '\n' :: rest) = some (r.recalled, '\n' :: rest) :=
    extract_decimal _ _ h4 (by intro c hc; simp at hc; subst hc; decide)
  have e3 : extract (decimal r.skill ++ '\t' :: (decimal r.recalled ++ '\n' :: rest))
      = some (r.skill, '\t' :: (decimal r.recalled ++ '\n' :: rest)) :=
    extract_decimal _ _ h3 (by intro c hc; simp at hc; subst hc; decide)
  have e2 : extract (decimal r.item ++ '\t' :: (decimal r.skill ++ '\t' ::
        (decimal r.recalled ++ '\n' :: rest)))
      = some (r.item, '\t' :: (decimal r.skill ++ '\t' :: (decimal r.recalled ++ '\n' :: rest))) :=
    extract_decimal _ _ h2 (by intro c hc; simp at hc; subst hc; decide)
  have e1 : extract (decimal r.student ++ '\t' :: (decimal r.item ++ '\t' ::
        (decimal r.skill ++ '\t' :: (decimal r.recalled ++ '\n' :: rest))))
      = some (r.student, '\t' :: (decimal r.item ++ '\t' :: (decimal r.skill ++ '\t' ::
          (decimal r.recalled ++ '\n' :: rest)))) :=
    extract_decimal _ _ h1 (by intro c hc; simp at hc; subst hc; decide)
  have skip : ∀ t : List Char, extract ('\t' :: t) = extract t :=
    fun t => extract_skip_space _ t (by decide)
  have shape : render_record r ++ rest
      = decimal r.student ++ '\t' :: (decimal r.item ++ '\t' ::
        (decimal r.skill ++ '\t' :: (decimal r.recalled ++ '\n' :: rest))) := by
    simp [render_record]
  rw [shape]
  unfold read_record
  simp [e1, skip, e2, e3, e4]

/-- A rendered list of records, followed by any text, is read back as those
records followed by what the rest of the text yields. -/
theorem read_records_render_append (recs : List Record) (tail : List Char)
    (h : ∀ r ∈ recs, r.well_formed) :
    read_records (render_records recs ++ tail) = recs ++ read_records tail := by
  induction recs with
  | nil => simp [render_records]
  | cons r rs ih =>
    have hr := h r (List.mem_cons_self _ _)
    have e : render_records (r :: rs) ++ tail = render_record r ++ (render_records rs ++ tail) := by
      simp [render_records]
    rw [e, read_records_step, read_record_render r _ hr]
    simp only
    rw [read_records_skip_space _ _ (by decide), ih (fun x hx => h x (List.mem_cons_of_mem _ hx))]
    simp

/-- A rendered list of records is read back as itself: every list of
well-formed records is the record stream of some data file. -/
theorem read_records_render (recs : List Record) (h : ∀ r ∈ recs, r.well_formed) :
    read_records (render_records recs) = recs := by
  have := read_records_render_append recs [] h
  simpa [read_records, read_records_fuel] using this

/-- A running maximum is at least its start value and every value met, and it
is the start value or one of the values met. -/
theorem foldl_max_spec (g : Record → Nat) (recs : List Record) (a0 : Nat) :
    a0 ≤ recs.foldl (fun a r => max (g r) a) a0 ∧
    (∀ r ∈ recs, g r ≤ recs.foldl (fun a r => max (g r) a) a0) ∧
    (recs.foldl (fun a r => max (g r) a) a0 = a0 ∨
      ∃ r ∈ recs, recs.foldl (fun a r => max (g r) a) a0 = g r) := by
  induction recs generalizing a0 with
  | nil => simp
  | cons x xs ih =>
    obtain ⟨h1, h2, h3⟩ := ih (max (g x) a0)
    simp only [List.foldl_cons]
    refine ⟨le_trans (le_max_right _ _) h1, ?_, ?_⟩
    · intro r hr
      simp only [List.mem_cons] at hr
      cases hr with
      | inl h => subst h; exact le_trans (le_max_left _ _) h1
      | inr h => exact h2 r h
    · cases h3 with
      | inl h =>
        rw [h]
        by_cases hc : g x ≤ a0
        · left; exact max_eq_right hc
        · right; exact ⟨x, List.mem_cons_self _ _, max_eq_left (by omega)⟩
      | inr h =>
        obtain ⟨r, hr, e⟩ := h
        right; exact ⟨r, List.mem_cons_of_mem _ hr, e⟩

/-- The three counters of the first pass are three independent running
maxima. -/
theorem count_records_foldl (recs : List Record) (c : Counts) :
    recs.foldl count_record c =
      { num_students := recs.foldl (fun a r => max ((r.student + 1) % SIZE_MOD) a) c.num_students
        num_items := recs.foldl (fun a r => max ((r.item + 1) % SIZE_MOD) a) c.num_items
        num_skills := recs.foldl (fun a r => max ((r.skill + 1) % SIZE_MOD) a) c.num_skills } := by
  induction recs generalizing c with
  | nil => rfl
  | cons x xs ih => simp only [List.foldl_cons]; rw [ih]; rfl

/-- A counter of the first pass when no `id + 1` of its kind wraps around: it
is above every id of the kind, it is `0` when there is no record, and otherwise
it is one plus an id that occurs (so one plus the largest). -/
theorem running_count_spec (f : Record → Nat) (recs : List Record)
    (hf : ∀ r ∈ recs, f r < SIZE_MOD - 1) :
    (∀ r ∈ recs, f r < recs.foldl (fun a r => max ((f r + 1) % SIZE_MOD) a) 0) ∧
    (recs = [] → recs.foldl (fun a r => max ((f r + 1) % SIZE_MOD) a) 0 = 0) ∧
    (recs ≠ [] → ∃ r ∈ recs, recs.foldl (fun a r => max ((f r + 1) % SIZE_MOD) a) 0 = f r + 1) := by
  have hmod : ∀ r ∈ recs, (f r + 1) % SIZE_MOD = f r + 1 := by
    intro r hr
    have := hf r hr
    exact Nat.mod_eq_of_lt (by omega)
  obtain ⟨_, h2, h3⟩ := foldl_max_spec (fun r => (f r + 1) % SIZE_MOD) recs 0
  refine ⟨?_, ?_, ?_⟩
  · intro r hr
    have := h2 r hr
    simp only [hmod r hr] at this
    omega
  · rintro rfl; rfl
  · intro hne
    cases h3 with
    | inl h0 =>
      obtain ⟨x, xs, rfl⟩ := List.exists_cons_of_ne_nil hne
      have := h2 x (List.mem_cons_self _ _)
      simp only [hmod x (List.mem_cons_self _ _)] at this
      omega
    | inr h =>
      obtain ⟨r, hr, e⟩ := h
      exact ⟨r, hr, by rw [e]; exact hmod r hr⟩

theorem count_records_students (recs : List Record) (h : ∀ r ∈ recs, r.student < SIZE_MOD - 1) :
    (∀ r ∈ recs, r.student < (count_records recs).num_students) ∧
    (recs = [] → (count_records recs).num_students = 0) ∧
    (recs ≠ [] → ∃ r ∈ recs, (count_records recs).num_students = r.student + 1) := by
  unfold count_records
  rw [count_records_foldl]
  exact running_count_spec Record.student recs h

theorem count_records_items (recs : List Record) (h : ∀ r ∈ recs, r.item < SIZE_MOD - 1) :
    (∀ r ∈ recs, r.item < (count_records recs).num_items) ∧
    (recs = [] → (count_records recs).num_items = 0) ∧
    (recs ≠ [] → ∃ r ∈ recs, (count_records recs).num_items = r.item + 1) := by
  unfold count_records
  rw [count_records_foldl]
  exact running_count_spec Record.item recs h

/-- Appending one entry to one row adds one to the total number of entries. -/
theorem sum_length_set {α : Type} (l : List (List α)) (i : Nat) (row : List α) (x : α)
    (h : l[i]? = some row) :
    ((l.set i (row ++ [x])).map List.length).sum = (l.map List.length).sum + 1 := by
  induction l generalizing i with
  | nil => simp at h
  | cons a as ih =>
    cases i with
    | zero =>
      simp at h
      subst h
      simp
      omega
    | succ j =>
      have h1 : as[j]? = some row := by simpa using h
      simp only [List.set_cons_succ, List.map_cons, List.sum_cons]
      rw [ih j h1]
      omega

/-- One iteration of the second pass succeeds when its subscripts are inside
the vectors and the two rows are not full. -/
theorem store_record_ok {lim : Limits} {t : Tables} {r : Record} {recalls : List Bool}
    {items : List Nat} (h1 : t.recall_sequences[r.student]? = some recalls)
    (h2 : t.item_sequences[r.student]? = some items)
    (hb : recalls.length < lim.max_bools) (he : items.length < lim.max_entries)
    (hi : r.item < t.provided_skill_assignments.length) :
    store_record lim t r = Stored.ok
      { provided_skill_assignments := t.provided_skill_assignments.set r.item r.skill
        recall_sequences := t.recall_sequences.set r.student
          (recalls ++ [decide (r.recalled ≠ 0)])
        item_sequences := t.item_sequences.set r.student (items ++ [r.item]) } := by
  unfold store_record
  simp only [h1, h2, push_back, Nat.not_le.mpr hb, Nat.not_le.mpr he, hi, if_true, if_false]

theorem records_of_student_cons (s : Nat) (r : Record) (rs : List Record) :
    records_of_student s (r :: rs)
      = if r.student = s then r :: records_of_student s rs else records_of_student s rs := by
  unfold records_of_student
  rw [List.filter_cons]
  by_cases h : r.student = s <;> simp [h]

/-- The second pass, when every subscript it uses is inside its vector and no
row gets longer than its `max_size()`: it succeeds, keeps the sizes of the
three vectors, appends to the rows of a student the outcomes and the items of
that student's records in file order, and overwrites the entry of an item with
the skill of the last record about it. -/
theorem store_records_spec (lim : Limits) (recs : List Record) :
    ∀ (t : Tables) (ns ni : Nat), t.recall_sequences.length = ns →
      t.item_sequences.length = ns → t.provided_skill_assignments.length = ni →
      (∀ r ∈ recs, r.student < ns ∧ r.item < ni) →
      (∀ s row, t.recall_sequences[s]? = some row →
        row.length + (records_of_student s recs).length ≤ lim.max_bools) →
      (∀ s row, t.item_sequences[s]? = some row →
        row.length + (records_of_student s recs).length ≤ lim.max_entries) →
      ∃ t1, store_records lim t recs = Stored.ok t1 ∧
        t1.recall_sequences.length = ns ∧ t1.item_sequences.length = ns ∧
        t1.provided_skill_assignments.length = ni ∧
        (∀ s, t1.recall_sequences[s]? = (t.recall_sequences[s]?).map
          (fun row => row ++ (records_of_student s recs).map Record.outcome)) ∧
        (∀ s, t1.item_sequences[s]? = (t.item_sequences[s]?).map
          (fun row => row ++ (records_of_student s recs).map Record.item)) ∧
        (∀ i, t1.provided_skill_assignments[i]? = (t.provided_skill_assignments[i]?).map
          (fun old => ((records_of_item i recs).getLast?.map Record.skill).getD old)) ∧
        (t1.item_sequences.map List.length).sum
          = (t.item_sequences.map List.length).sum + recs.length ∧
        (t1.recall_sequences.map List.length).sum
          = (t.recall_sequences.map List.length).sum + recs.length := by
  induction recs with
  | nil =>
    intro t ns ni h1 h2 h3 _ _ _
    refine ⟨t, rfl, h1, h2, h3, ?_, ?_, ?_, by simp, by simp⟩
    · intro s; cases t.recall_sequences[s]? <;> simp [records_of_student]
    · intro s; cases t.item_sequences[s]? <;> simp [records_of_student]
    · intro i; cases t.provided_skill_assignments[i]? <;> simp [records_of_item]
  | cons r rs ih =>
    intro t ns ni h1 h2 h3 hb hcb hce
    obtain ⟨hs, hi⟩ := hb r (List.mem_cons_self _ _)
    have e1 : t.recall_sequences[r.student]? = some (t.recall_sequences[r.student]) :=
      List.getElem?_eq_getElem (by omega)
    have e2 : t.item_sequences[r.student]? = some (t.item_sequences[r.student]) :=
      List.getElem?_eq_getElem (by omega)
    have e3 : t.provided_skill_assignments[r.item]? = some (t.provided_skill_assignments[r.item]) :=
      List.getElem?_eq_getElem (by omega)
    have hc1 := hcb r.student _ e1
    have hc2 := hce r.student _ e2
    rw [records_of_student_cons, if_pos rfl, List.length_cons] at hc1 hc2
    have hstep := @store_record_ok lim t r _ _ e1 e2 (by omega) (by omega) (by omega)
    obtain ⟨t1, ht1, l1, l2, l3, p1, p2, p3, p4, p5⟩ := ih
      { provided_skill_assignments := t.provided_skill_assignments.set r.item r.skill
        recall_sequences := t.recall_sequences.set r.student
          (t.recall_sequences[r.student] ++ [decide (r.recalled ≠ 0)])
        item_sequences := t.item_sequences.set r.student
          (t.item_sequences[r.student] ++ [r.item]) } ns ni
      (by simp [h1]) (by simp [h2]) (by simp [h3])
      (fun x hx => hb x (List.mem_cons_of_mem _ hx))
      (by
        intro s row hrow
        simp only [List.getElem?_set] at hrow
        by_cases hsr : r.student = s
        · subst hsr
          simp only [if_true, h1, hs] at hrow
          have := Option.some.inj hrow
          subst this
          simp only [List.length_append, List.length_singleton]
          omega
        · simp only [hsr, if_false] at hrow
          have := hcb s row hrow
          rw [records_of_student_cons, if_neg hsr] at this
          exact this)
      (by
        intro s row hrow
        simp only [List.getElem?_set] at hrow
        by_cases hsr : r.student = s
        · subst hsr
          simp only [if_true, h2, hs] at hrow
          have := Option.some.inj hrow
          subst this
          simp only [List.length_append, List.length_singleton]
          omega
        · simp only [hsr, if_false] at hrow
          have := hce s row hrow
          rw [records_of_student_cons, if_neg hsr] at this
          exact this)
    refine ⟨t1, ?_, l1, l2, l3, ?_, ?_, ?_, ?_, ?_⟩
    · simp only [store_records, hstep, ht1]
    · intro s
      rw [p1 s]
      simp only [List.getElem?_set, records_of_student, List.filter_cons]
      by_cases hsr : r.student = s
      · subst hsr
        simp [e1, h1, hs, Record.outcome]
      · simp [hsr]
    · intro s
      rw [p2 s]
      simp only [List.getElem?_set, records_of_student, List.filter_cons]
      by_cases hsr : r.student = s
      · subst hsr
        simp [e2, h2, hs]
      · simp [hsr]
    · intro i
      rw [p3 i]
      simp only [List.getElem?_set, records_of_item, List.filter_cons]
      by_cases hir : r.item = i
      · subst hir
        simp only [e3, h3, hi, if_true, decide_True, Option.map_some', List.getLast?_cons]
        cases (List.filter (fun r_1 => decide (r_1.item = r.item)) rs).getLast? <;> simp
      · simp [hir]
    · rw [p4]
      simp only
      rw [sum_length_set _ _ _ _ e2]
      simp only [List.length_cons]
      omega
    · rw [p5]
      simp only
      rw [sum_length_set _ _ _ _ e1]
      simp only [List.length_cons]
      omega

theorem resize_nil {α : Type} (max_size n : Nat) (fill : α) (h : n ≤ max_size) :
    resize max_size ([] : List α) n fill = some (List.replicate n fill) := by
  unfold resize
  rw [if_neg (by omega)]
  simp

/-- The whole of `load_dataset` after the file is open, called with empty
vectors, on records within the capacity of the vectors: it returns, with the
counts of the first pass, vectors of those sizes, for every student the
outcomes and the items of that student's records in file order, and for every
item the skill of the last record about it, or the sentinel. -/
theorem load_records_spec (lim : Limits) (recs : List Record) (h : dataset_fits lim recs) :
    ∃ t, load_records lim recs empty_tables = LoadResult.loaded ⟨t, count_records recs⟩ ∧
      t.recall_sequences.length = (count_records recs).num_students ∧
      t.item_sequences.length = (count_records recs).num_students ∧
      t.provided_skill_assignments.length = (count_records recs).num_items ∧
      (∀ s, s < (count_records recs).num_students →
        t.recall_sequences[s]? = some ((records_of_student s recs).map Record.outcome) ∧
        t.item_sequences[s]? = some ((records_of_student s recs).map Record.item)) ∧
      (∀ i, i < (count_records recs).num_items →
        t.provided_skill_assignments[i]?
          = some (((records_of_item i recs).getLast?.map Record.skill).getD SENTINEL)) ∧
      (t.item_sequences.map List.length).sum = recs.length ∧
      (t.recall_sequences.map List.length).sum = recs.length := by
  obtain ⟨hfit, hrows⟩ := h
  obtain ⟨hs, hs0, hs1⟩ := count_records_students recs (fun r hr => (hfit r hr).1)
  obtain ⟨hi, hi0, hi1⟩ := count_records_items recs (fun r hr => (hfit r hr).2.2.2.1)
  have bound : (count_records recs).num_students ≤ lim.max_recall_rows ∧
      (count_records recs).num_students ≤ lim.max_item_rows ∧
      (count_records recs).num_items ≤ lim.max_entries := by
    by_cases hnil : recs = []
    · rw [hs0 hnil, hi0 hnil]; omega
    · obtain ⟨r1, hr1, e1⟩ := hs1 hnil
      obtain ⟨r2, hr2, e2⟩ := hi1 hnil
      have f1 := hfit r1 hr1
      have f2 := hfit r2 hr2
      unfold Record.fits at f1 f2
      omega
  have r1 := resize_nil lim.max_entries (count_records recs).num_items (SIZE_MOD - 1) bound.2.2
  have r2 := resize_nil lim.max_recall_rows (count_records recs).num_students
    ([] : List Bool) bound.1
  have r3 := resize_nil lim.max_item_rows (count_records recs).num_students
    ([] : List Nat) bound.2.1
  obtain ⟨t1, ht1, l1, l2, l3, p1, p2, p3, p4, p5⟩ := store_records_spec lim recs
    { provided_skill_assignments := List.replicate (count_records recs).num_items (SIZE_MOD - 1)
      recall_sequences := List.replicate (count_records recs).num_students []
      item_sequences := List.replicate (count_records recs).num_students [] }
    (count_records recs).num_students (count_records recs).num_items
    (by simp) (by simp) (by simp)
    (fun r hr => ⟨hs r hr, hi r hr⟩)
    (by
      intro s row hrow
      rw [List.getElem?_replicate] at hrow
      split at hrow
      · have := Option.some.inj hrow
        subst this
        simpa using (hrows s).1
      · exact absurd hrow (by simp))
    (by
      intro s row hrow
      rw [List.getElem?_replicate] at hrow
      split at hrow
      · have := Option.some.inj hrow
        subst this
        simpa using (hrows s).2
      · exact absurd hrow (by simp))
  refine ⟨t1, ?_, l1, l2, l3, ?_, ?_, ?_, ?_⟩
  · unfold load_records
    simp only [empty_tables, r1, r2, r3, ht1]
  · intro s hlt
    rw [p1 s, p2 s]
    simp [List.getElem?_replicate, hlt]
  · intro i hlt
    rw [p3 i]
    simp [List.getElem?_replicate, hlt, SENTINEL]
  · rw [p4]; simp
  · rw [p5]; simp

/-- A short list of records that fit is within the capacity of the vectors. -/
theorem dataset_fits_of_short (lim : Limits) (recs : List Record)
    (h : ∀ r ∈ recs, r.fits lim) (hb : recs.length ≤ lim.max_bools)
    (he : recs.length ≤ lim.max_entries) : dataset_fits lim recs := by
  refine ⟨h, fun s => ?_⟩
  have : (records_of_student s recs).length ≤ recs.length := by
    unfold records_of_student
    exact List.length_filter_le _ _
  omega

/-! ## Saving the assignments -/

theorem intercalate_singleton (sep w : List Char) : sep.intercalate [w] = w := by
  simp [List.intercalate]

theorem intercalate_cons_cons (sep w w1 : List Char) (ws : List (List Char)) :
    sep.intercalate (w :: w1 :: ws) = w ++ sep ++ sep.intercalate (w1 :: ws) := by
  simp [List.intercalate]

theorem intercalate_concat (sep : List Char) (ws : List (List Char)) (y : List Char) :
    sep.intercalate (ws ++ [y]) = (ws.map (fun w => w ++ sep)).flatten ++ y := by
  induction ws with
  | nil => simp [List.intercalate]
  | cons w ws ih =>
    cases ws with
    | nil => simp [List.intercalate]
    | cons w1 ws1 =>
      have : (w :: w1 :: ws1) ++ [y] = w :: w1 :: (ws1 ++ [y]) := rfl
      rw [this, intercalate_cons_cons]
      have ih1 : sep.intercalate (w1 :: (ws1 ++ [y]))
          = ((w1 :: ws1).map (fun w => w ++ sep)).flatten ++ y := ih
      rw [ih1]
      simp

/-- The inner loop after `k` of its iterations, none of them the last. -/
theorem write_row_partway (num_items : Nat) (v : List Nat) (hv : v.length = num_items) :
    ∀ k, k < num_items →
      (List.range k).foldl
        (fun out item => out ++ decimal (v.getD item 0) ++
          (if item = num_items - 1 then ['\n'] else [' '])) []
      = (((v.take k).map decimal).map (fun w => w ++ [' '])).flatten := by
  intro k
  induction k with
  | zero => intro _; simp
  | succ k ih =>
    intro hk
    have hk1 : k < v.length := by omega
    rw [List.range_succ, List.foldl_append, ih (by omega)]
    have hne : ¬ (k = num_items - 1) := by omega
    have hget : v.getD k 0 = v[k] := by
      rw [List.getD_eq_getElem?_getD, List.getElem?_eq_getElem hk1]; rfl
    have htake : v.take (k + 1) = v.take k ++ [v[k]] := by
      rw [List.take_succ, List.getElem?_eq_getElem hk1]; rfl
    rw [htake]
    simp only [List.foldl_cons, List.foldl_nil, hne, if_false, hget, List.map_append,
      List.map_cons, List.map_nil, List.flatten_append, List.flatten_cons, List.flatten_nil,
      List.append_nil, List.append_assoc]

/-- The inner loop writes the line the spec asks for. -/
theorem write_row_eq_spec_line (num_items : Nat) (v : List Nat) (hv : v.length = num_items)
    (hpos : 0 < num_items) : write_row num_items v = spec_line v := by
  obtain ⟨k, rfl⟩ : ∃ k, num_items = k + 1 := ⟨num_items - 1, by omega⟩
  have hk1 : k < v.length := by omega
  unfold write_row spec_line
  rw [List.range_succ, List.foldl_append, write_row_partway (k + 1) v hv k (by omega)]
  have hget : v.getD k 0 = v[k] := by
    rw [List.getD_eq_getElem?_getD, List.getElem?_eq_getElem hk1]; rfl
  have hsplit : v.take k ++ [v[k]] = v := by
    have h1 : v.take (k + 1) = v.take k ++ [v[k]] := by
      rw [List.take_succ, List.getElem?_eq_getElem hk1]; rfl
    have h2 : v.take (k + 1) = v := List.take_of_length_le (by omega)
    rw [← h1, h2]
  have hmap : v.map decimal = (v.take k).map decimal ++ [decimal v[k]] := by
    rw [← List.map_singleton, ← List.map_append, hsplit]
  rw [hmap, intercalate_concat]
  simp only [List.foldl_cons, List.foldl_nil, hget, Nat.add_sub_cancel, if_true,
    List.append_assoc]

/-- The outer loop, when every vector has `num_items` entries. -/
theorem write_samples_saved (num_items : Nat) (hpos : 0 < num_items) (vs : List (List Nat)) :
    ∀ out, (∀ v ∈ vs, v.length = num_items) →
      write_samples num_items vs out = SaveResult.saved (out ++ spec_text vs) := by
  induction vs with
  | nil => intro out _; simp [write_samples, spec_text]
  | cons v vs ih =>
    intro out h
    have hv := h v (List.mem_cons_self _ _)
    simp only [write_samples, hv, if_true]
    rw [ih _ (fun x hx => h x (List.mem_cons_of_mem _ hx)), write_row_eq_spec_line _ _ hv hpos]
    simp [spec_text]

/-- The outer loop, when it meets a vector that does not have `num_items`
entries: the lines of the vectors before it have been written, nothing of it
and nothing after it. -/
theorem write_samples_aborted (num_items : Nat) (hpos : 0 < num_items)
    (before : List (List Nat)) (v : List Nat) (after : List (List Nat)) :
    ∀ out, (∀ x ∈ before, x.length = num_items) → v.length ≠ num_items →
      write_samples num_items (before ++ v :: after) out
        = SaveResult.assert_failed (out ++ spec_text before) := by
  induction before with
  | nil => intro out _ hv; simp [write_samples, spec_text, hv]
  | cons b bs ih =>
    intro out h hv
    have hb := h b (List.mem_cons_self _ _)
    have e : write_samples num_items (b :: bs ++ v :: after) out
        = write_samples num_items (bs ++ v :: after) (out ++ write_row num_items b) := by
      show write_samples num_items (b :: (bs ++ v :: after)) out = _
      simp only [write_samples, hb, if_true]
    rw [e, ih _ (fun x hx => h x (List.mem_cons_of_mem _ hx)) hv,
      write_row_eq_spec_line _ _ hb hpos]
    simp [spec_text]

theorem split_on_ne_nil (sep : Char) (s : List Char) : split_on sep s ≠ [] := by
  cases s with
  | nil => simp [split_on]
  | cons c cs =>
    simp only [split_on]
    split
    · simp
    · split <;> simp

theorem split_on_no_sep (sep : Char) (w : List Char) (h : sep ∉ w) : split_on sep w = [w] := by
  induction w with
  | nil => rfl
  | cons c cs ih =>
    have hc : c ≠ sep := fun e => h (by rw [e]; exact List.mem_cons_self _ _)
    have := ih (fun hm => h (List.mem_cons_of_mem _ hm))
    simp [split_on, hc, this]

theorem split_on_append_sep (sep : Char) (w rest : List Char) (h : sep ∉ w) :
    split_on sep (w ++ sep :: rest) = w :: split_on sep rest := by
  induction w with
  | nil => simp [split_on]
  | cons c cs ih =>
    have hc : c ≠ sep := fun e => h (by rw [e]; exact List.mem_cons_self _ _)
    have := ih (fun hm => h (List.mem_cons_of_mem _ hm))
    simp [split_on, hc, this]

/-- Cutting space-joined words at the spaces gives the words back. -/
theorem split_on_intercalate (ws : List (List Char)) (hne : ws ≠ [])
    (h : ∀ w ∈ ws, ' ' ∉ w) : split_on ' ' ([' '].intercalate ws) = ws := by
  induction ws with
  | nil => exact absurd rfl hne
  | cons w ws ih =>
    cases ws with
    | nil =>
      rw [intercalate_singleton]
      exact split_on_no_sep _ _ (h w (List.mem_cons_self _ _))
    | cons w1 ws1 =>
      rw [intercalate_cons_cons]
      have e : w ++ [' '] ++ [' '].intercalate (w1 :: ws1)
          = w ++ ' ' :: [' '].intercalate (w1 :: ws1) := by simp
      rw [e, split_on_append_sep _ _ _ (h w (List.mem_cons_self _ _)),
        ih (by simp) (fun x hx => h x (List.mem_cons_of_mem _ hx))]

theorem decimal_no_separator (n : Nat) : ' ' ∉ decimal n ∧ '\n' ∉ decimal n := by
  constructor
  · intro h
    exact absurd (decimal_all_digits n _ h) (by decide)
  · intro h
    exact absurd (decimal_all_digits n _ h) (by decide)

theorem intercalate_no_newline (ws : List (List Char)) (h : ∀ w ∈ ws, '\n' ∉ w) :
    '\n' ∉ [' '].intercalate ws := by
  induction ws with
  | nil => simp [List.intercalate]
  | cons w ws ih =>
    cases ws with
    | nil =>
      rw [intercalate_singleton]
      exact h w (List.mem_cons_self _ _)
    | cons w1 ws1 =>
      rw [intercalate_cons_cons]
      intro hm
      simp only [List.mem_append] at hm
      rcases hm with (hm | hm) | hm
      · exact h w (List.mem_cons_self _ _) hm
      · simp at hm
      · exact ih (fun x hx => h x (List.mem_cons_of_mem _ hx)) hm

/-- Cutting the saved text at the newlines gives the lines back, followed by
the empty text after the last newline. -/
theorem split_on_spec_text (vs : List (List Nat)) :
    split_on '\n' (spec_text vs)
      = vs.map (fun v => [' '].intercalate (v.map decimal)) ++ [[]] := by
  induction vs with
  | nil => simp [spec_text, split_on]
  | cons v vs ih =>
    have e : spec_text (v :: vs) = [' '].intercalate (v.map decimal) ++ '\n' :: spec_text vs := by
      simp [spec_text, spec_line]
    rw [e, split_on_append_sep _ _ _ (intercalate_no_newline _ (by
      intro w hw
      simp only [List.mem_map] at hw
      obtain ⟨n, _, rfl⟩ := hw
      exact (decimal_no_separator n).2)), ih]
    simp

/-- Reading the saved text back gives the vectors, as long as none is empty. -/
theorem parse_saved_spec_text (vs : List (List Nat)) (h : ∀ v ∈ vs, v ≠ []) :
    parse_saved (spec_text vs) = vs := by
  unfold parse_saved
  rw [split_on_spec_text, List.dropLast_concat, List.map_map]
  conv_rhs => rw [← List.map_id vs]
  apply List.map_congr_left
  intro v hv
  simp only [Function.comp, id]
  rw [split_on_intercalate _ (by simpa using h v hv) (by
    intro w hw
    simp only [List.mem_map] at hw
    obtain ⟨n, _, rfl⟩ := hw
    exact (decimal_no_separator n).1), List.map_map]
  conv_rhs => rw [← List.map_id v]
  apply List.map_congr_left
  intro n _
  simp [digits_value_decimal]

/-! ## Theorems about `main` -/

/-- The conditions under which `main` reaches the model, and what it passes. -/
theorem main_model_run_inv {lim : Limits} {core : MixtureWCRP} {w : World} {o : Options}
    {ctor : ModelArgs} {mcmc : McmcArgs} {s : SaveResult}
    (h : main lim core w o = Outcome.model_run ctor mcmc s) :
    ¬ (o.argc = 1 ∨ o.help = true) ∧
    ∃ ia fa ib fb d,
      alpha_prime_setting o = some (ia, fa) ∧ beta_setting o = some (ib, fb) ∧
      to_size_t o.burn < to_size_t o.num_iterations ∧
      load_dataset lim (w.files o.datafile) empty_tables = LoadResult.loaded d ∧
      0 < d.counts.num_students ∧ 0 < d.counts.num_items ∧
      ctor = model_args w o d ib ia ∧
      mcmc = ⟨to_size_t o.num_iterations, to_size_t o.burn, fb, fa⟩ ∧
      s = save o.map_estimate d.counts.num_items (core.run ctor mcmc) := by
  unfold main at h
  by_cases hh : (o.argc = 1 ∨ o.help = true)
  · have : (decide (o.argc = 1) || o.help) = true := by simpa using hh
    simp [this] at h
  · have hf : (decide (o.argc = 1) || o.help) = false := by simpa using hh
    refine ⟨hh, ?_⟩
    simp only [hf] at h
    cases ha : alpha_prime_setting o with
    | none => simp [ha] at h
    | some p =>
      obtain ⟨ia, fa⟩ := p
      cases hb : beta_setting o with
      | none => simp [ha, hb] at h
      | some q =>
        obtain ⟨ib, fb⟩ := q
        simp only [ha, hb] at h
        by_cases hlt : to_size_t o.burn < to_size_t o.num_iterations
        · cases hl : load_dataset lim (w.files o.datafile) empty_tables with
          | open_failed => simp [hl, hlt] at h
          | length_error => simp [hl, hlt] at h
          | out_of_range => simp [hl, hlt] at h
          | loaded d =>
            by_cases hd : 0 < d.counts.num_students ∧ 0 < d.counts.num_items
            · simp only [hl, hlt, hd] at h
              simp at h
              obtain ⟨h1, h2, h3⟩ := h
              refine ⟨ia, fa, ib, fb, d, rfl, rfl, hlt, rfl, hd.1, hd.2, ?_, ?_, ?_⟩
              · rw [← h1]
              · rw [← h2]
              · rw [← h3, ← h1, ← h2]
            · simp [hl, hlt, hd] at h
        · simp [hlt] at h

/-- A run that stops before the `assert` on the dataset never calls
`load_dataset`, never constructs the model, and is an abort unless it only
prints the help text. -/
theorem main_stops_of_not_lt (lim : Limits) (core : MixtureWCRP) (w : World) (o : Options)
    (hb : ¬ (to_size_t o.burn < to_size_t o.num_iterations)) :
    (main lim core w o).called_load_dataset = false ∧
    (main lim core w o).constructed_model = false ∧
    (¬ (o.argc = 1 ∨ o.help = true) → (main lim core w o).aborted = true) := by
  unfold main
  by_cases hh : (o.argc = 1 ∨ o.help = true)
  · have : (decide (o.argc = 1) || o.help) = true := by simpa using hh
    simp [this, hh, Outcome.called_load_dataset, Outcome.constructed_model]
  · have : (decide (o.argc = 1) || o.help) = false := by
      simpa using hh
    simp only [this]
    cases alpha_prime_setting o with
    | none => simp [Outcome.called_load_dataset, Outcome.constructed_model, Outcome.aborted]
    | some p =>
      cases beta_setting o with
      | none => simp [Outcome.called_load_dataset, Outcome.constructed_model, Outcome.aborted]
      | some q =>
        simp [hb, Outcome.called_load_dataset, Outcome.constructed_model, Outcome.aborted]

/-- C1. Whenever the two command-line integers, converted to `size_t` the way
`main` converts them, satisfy `num_iterations <= burn`, the run never calls
`load_dataset` and never constructs the model (so `run_mcmc` is never invoked),
and unless `main` only prints the help text the run ends in a failed `assert`
of `main`. -/
theorem main_stops_when_iterations_le_burn (lim : Limits) (core : MixtureWCRP) (w : World) (o : Options)
    (h : to_size_t o.num_iterations ≤ to_size_t o.burn) :
    (main lim core w o).called_load_dataset = false ∧
    (main lim core w o).constructed_model = false ∧
    (¬ (o.argc = 1 ∨ o.help = true) → (main lim core w o).aborted = true) :=
  main_stops_of_not_lt lim core w o (Nat.not_lt.mpr h)

/-- C1, at `num_iterations = burn = 100`. -/
theorem main_stops_when_iterations_le_burn_witness :
    to_size_t (100 : Int) ≤ to_size_t (100 : Int) ∧
    (main lp64_limits sample_core (sample_world "0 0 0 1")
      { sample_options with num_iterations := 100 }).aborted = true :=
  ⟨by decide, (main_stops_when_iterations_le_burn lp64_limits sample_core (sample_world "0 0 0 1")
      { sample_options with num_iterations := 100 } (by decide)).2.2 (by decide)⟩

/-- C3 fails as stated: with `--num_subsamples 0` (and with `--num_subsamples -1`,
and with `--num_iterations -1`) `main` raises nothing, constructs the model and
runs the sampler; the model receives `0` subsamples (resp. `2 ^ 64 - 1`
subsamples, `2 ^ 64 - 1` iterations). -/
theorem nonpositive_counts_reach_the_model :
    ((main lp64_limits sample_core (sample_world "0 0 0 1")
        { sample_options with num_subsamples := 0 }).ctor_args.map ModelArgs.num_subsamples
      = some 0) ∧
    ((main lp64_limits sample_core (sample_world "0 0 0 1")
        { sample_options with num_subsamples := -1 }).ctor_args.map ModelArgs.num_subsamples
      = some (2 ^ 64 - 1)) ∧
    ((main lp64_limits sample_core (sample_world "0 0 0 1")
        { sample_options with num_iterations := -1 }).mcmc_args.map McmcArgs.num_iterations
      = some (2 ^ 64 - 1)) := by
  decide

/-- C3, amended. `main` checks `num_iterations` only through
`num_iterations > burn` on the converted values, and does not check
`num_subsamples` at all: (1) with `num_iterations = 0` the run never calls
`load_dataset`, never constructs the model, and aborts unless it only prints the
help text; (2) whenever the model is constructed, it receives the supplied
`num_subsamples` converted to `size_t`, and `run_mcmc` receives the supplied
`num_iterations` and `burn` converted to `size_t`, with `burn < num_iterations`
(so `num_iterations` is positive as a `size_t` and was not supplied as `0`);
(3) whether the model is constructed does not depend on `num_subsamples`. -/
theorem counts_checked_by_main (lim : Limits) (core : MixtureWCRP) (w : World) (o : Options) :
    (o.num_iterations = 0 →
      (main lim core w o).called_load_dataset = false ∧
      (main lim core w o).constructed_model = false ∧
      (¬ (o.argc = 1 ∨ o.help = true) → (main lim core w o).aborted = true)) ∧
    (∀ ctor mcmc s, main lim core w o = Outcome.model_run ctor mcmc s →
      ctor.num_subsamples = to_size_t o.num_subsamples ∧
      mcmc.num_iterations = to_size_t o.num_iterations ∧
      mcmc.burn = to_size_t o.burn ∧
      mcmc.burn < mcmc.num_iterations ∧ 0 < mcmc.num_iterations ∧ o.num_iterations ≠ 0) ∧
    (∀ n : Int, (main lim core w { o with num_subsamples := n }).constructed_model =
      (main lim core w o).constructed_model) := by
  refine ⟨?_, ?_, ?_⟩
  · intro h0
    apply main_stops_of_not_lt
    rw [h0]
    simp [to_size_t]
  · intro ctor mcmc s h
    obtain ⟨_, ia, fa, ib, fb, d, _, _, hlt, _, _, _, hc, hm, _⟩ := main_model_run_inv h
    subst hc hm
    refine ⟨rfl, rfl, rfl, hlt, Nat.lt_of_le_of_lt (Nat.zero_le _) hlt, ?_⟩
    intro h0
    rw [h0] at hlt
    simp [to_size_t] at hlt
  · intro n
    unfold main
    have ha : alpha_prime_setting { o with num_subsamples := n } = alpha_prime_setting o := rfl
    have hb : beta_setting { o with num_subsamples := n } = beta_setting o := rfl
    simp only [ha, hb]
    split
    · rfl
    · split
      · rfl
      · split
        · rfl
        · split
          · rfl
          · split
            · rfl
            · split
              · rfl
              · rfl
              · rfl
              · split <;> rfl

/-- C3 amended, on the default command line with `--num_iterations 0`. -/
theorem counts_checked_by_main_witness :
    (main lp64_limits sample_core (sample_world "0 0 0 1")
      { sample_options with num_iterations := 0 }).constructed_model = false :=
  ((counts_checked_by_main lp64_limits sample_core (sample_world "0 0 0 1")
    { sample_options with num_iterations := 0 }).1 rfl).2.1

/-- A skill id other than `2 ^ 64 - 1` is below `num_skills`. -/
theorem count_records_skill_lt (recs : List Record) (r : Record) (hr : r ∈ recs)
    (h : r.skill < SIZE_MOD - 1) : r.skill < (count_records recs).num_skills := by
  unfold count_records
  rw [count_records_foldl]
  obtain ⟨_, h2, _⟩ := foldl_max_spec (fun r => (r.skill + 1) % SIZE_MOD) recs 0
  have := h2 r hr
  simp only [Nat.mod_eq_of_lt (by omega : r.skill + 1 < SIZE_MOD)] at this
  exact this

/-- C9 fails as stated: with the single record `0 0 18446744073709551615 1` the
item ids are contiguous from `0`, yet the entry of item `0` is `2 ^ 64 - 1`,
which is the sentinel and is not below `num_skills = 0`; with an item id
`2 ^ 64 - 1` a subscript is outside the vector, and with an item id
`2 ^ 64 - 2` `resize` throws `std::length_error`: no vector is returned. -/
theorem provided_skill_is_sentinel_at_largest_id :
    (∀ r ∈ read_records "0\t0\t18446744073709551615\t1\n".toList, r.well_formed) ∧
    (∃ d, load_dataset lp64_limits (some "0\t0\t18446744073709551615\t1\n".toList) empty_tables
        = LoadResult.loaded d ∧
      d.counts.num_items = 1 ∧ d.counts.num_skills = 0 ∧
      d.tables.provided_skill_assignments[0]? = some SENTINEL ∧
      ¬ (SENTINEL < d.counts.num_skills)) ∧
    load_dataset lp64_limits (some "0\t18446744073709551615\t0\t1\n".toList) empty_tables
      = LoadResult.out_of_range ∧
    load_dataset lp64_limits (some "0\t18446744073709551614\t0\t1\n".toList) empty_tables
      = LoadResult.length_error := by
  refine ⟨by decide, ⟨⟨⟨[2 ^ 64 - 1], [[true]], [[0]]⟩, ⟨1, 1, 0⟩⟩, by decide, by decide, by decide,
    by decide, by decide⟩, by decide, by decide⟩

/-- C9, amended. For every data file whose records are within the capacity of
the vectors, `load_dataset` (called with empty vectors, as `main` does) returns
`provided_skill_assignments` of length `num_items`; for every item id that
occurs in some record the entry is the skill field of the last record in file
order with that item, and it is below `num_skills` unless it is `2 ^ 64 - 1`;
for every item id below `num_items` that occurs in no record the entry is the
sentinel; and when every item id below `num_items` occurs and no such last
skill field is `2 ^ 64 - 1`, no entry is the sentinel. -/
theorem provided_skill_assignments_spec (lim : Limits) (file : List Char)
    (recs : List Record) (hfile : read_records file = recs) (h : dataset_fits lim recs) :
    ∃ d, load_dataset lim (some file) empty_tables = LoadResult.loaded d ∧
      d.counts = count_records recs ∧
      d.tables.provided_skill_assignments.length = d.counts.num_items ∧
      (∀ i r, (records_of_item i recs).getLast? = some r →
        i < d.counts.num_items ∧ d.tables.provided_skill_assignments[i]? = some r.skill ∧
        (r.skill < SIZE_MOD - 1 → r.skill < d.counts.num_skills)) ∧
      (∀ i, i < d.counts.num_items → records_of_item i recs = [] →
        d.tables.provided_skill_assignments[i]? = some SENTINEL) ∧
      ((∀ i, i < d.counts.num_items → ∃ r ∈ recs, r.item = i) →
        (∀ i r, (records_of_item i recs).getLast? = some r → r.skill ≠ SENTINEL) →
        ∀ x ∈ d.tables.provided_skill_assignments, x ≠ SENTINEL) := by
  obtain ⟨t, ht, _, _, l3, _, p3, _, _⟩ := load_records_spec lim recs h
  have hi := (count_records_items recs (fun r hr => (h.1 r hr).2.2.2.1)).1
  have hlast : ∀ i r, (records_of_item i recs).getLast? = some r → r ∈ recs ∧ r.item = i := by
    intro i r hr
    have hm : r ∈ records_of_item i recs := List.mem_of_getLast?_eq_some hr
    unfold records_of_item at hm
    rw [List.mem_filter] at hm
    exact ⟨hm.1, by simpa using hm.2⟩
  refine ⟨⟨t, count_records recs⟩, by simp only [load_dataset, hfile, ht], rfl, l3, ?_, ?_, ?_⟩
  · intro i r hr
    obtain ⟨hmem, hitem⟩ := hlast i r hr
    have hlt : i < (count_records recs).num_items := by rw [← hitem]; exact hi r hmem
    refine ⟨hlt, ?_, count_records_skill_lt recs r hmem⟩
    show t.provided_skill_assignments[i]? = some r.skill
    rw [p3 i hlt, hr]
    rfl
  · intro i hlt hnone
    show t.provided_skill_assignments[i]? = some SENTINEL
    rw [p3 i hlt, hnone]
    rfl
  · intro hall hskill x hx
    obtain ⟨i, hlen, hget⟩ := List.getElem_of_mem hx
    have hlt : i < (count_records recs).num_items := by rw [← l3]; exact hlen
    obtain ⟨r0, hr0, hr0i⟩ := hall i hlt
    have hne : records_of_item i recs ≠ [] := by
      intro hnil
      have : r0 ∈ records_of_item i recs := by
        unfold records_of_item
        rw [List.mem_filter]
        exact ⟨hr0, by simpa using hr0i⟩
      rw [hnil] at this
      exact absurd this (List.not_mem_nil _)
    obtain ⟨r, hr⟩ : ∃ r, (records_of_item i recs).getLast? = some r := by
      cases hl : (records_of_item i recs).getLast? with
      | none => exact absurd (List.getLast?_eq_none_iff.mp hl) hne
      | some r => exact ⟨r, rfl⟩
    have hval : t.provided_skill_assignments[i]? = some r.skill := by
      rw [p3 i hlt, hr]; rfl
    have hx2 : t.provided_skill_assignments[i]? = some x := by
      rw [List.getElem?_eq_getElem hlen, hget]
    have hxr : x = r.skill := by
      rw [hval] at hx2
      exact (Option.some.inj hx2).symm
    rw [hxr]
    exact hskill i r hr

/-- C9 amended, on a file in which item `1` does not occur. -/
theorem provided_skill_assignments_spec_witness :
    dataset_fits lp64_limits [⟨0, 0, 0, 1⟩, ⟨0, 2, 1, 0⟩] ∧
    ∃ d, load_dataset lp64_limits (some "0\t0\t0\t1\n0\t2\t1\t0\n".toList) empty_tables
        = LoadResult.loaded d ∧
      d.counts = count_records [⟨0, 0, 0, 1⟩, ⟨0, 2, 1, 0⟩] ∧
      d.tables.provided_skill_assignments.length = d.counts.num_items :=
  ⟨dataset_fits_of_short _ _ (by decide) (by decide) (by decide),
    (provided_skill_assignments_spec lp64_limits "0\t0\t0\t1\n0\t2\t1\t0\n".toList
      [⟨0, 0, 0, 1⟩, ⟨0, 2, 1, 0⟩] (by decide)
      (dataset_fits_of_short _ _ (by decide) (by decide) (by decide))).imp
      (fun _ hd => ⟨hd.1, hd.2.1, hd.2.2.1⟩)⟩

/-- C10 fails on the code: the record `18446744073709551615 0 0 1` has 64-bit
unsigned fields; the first pass computes `num_students = max(id + 1, 0) = 0`
because `id + 1` wraps around, the vectors are resized to `0` rows, and the
second pass subscripts `recall_sequences` with `2 ^ 64 - 1`: the student field
is not below `num_students`. -/
theorem second_pass_index_out_of_range :
    read_records "18446744073709551615\t0\t0\t1\n".toList = [⟨2 ^ 64 - 1, 0, 0, 1⟩] ∧
    (count_records [⟨2 ^ 64 - 1, 0, 0, 1⟩]).num_students = 0 ∧
    ¬ ((⟨2 ^ 64 - 1, 0, 0, 1⟩ : Record).student
        < (count_records [⟨2 ^ 64 - 1, 0, 0, 1⟩]).num_students) ∧
    load_dataset lp64_limits (some "18446744073709551615\t0\t0\t1\n".toList) empty_tables
      = LoadResult.out_of_range ∧
    main lp64_limits sample_core (sample_world "18446744073709551615\t0\t0\t1\n") sample_options
      = Outcome.out_of_range ∧
    (∀ lim : Limits, 0 < lim.max_entries →
      load_dataset lim (some "18446744073709551615\t0\t0\t1\n".toList) empty_tables
        = LoadResult.out_of_range) := by
  refine ⟨by decide, by decide, by decide, by decide, by decide, ?_⟩
  intro lim hpos
  have hr : read_records "18446744073709551615\t0\t0\t1\n".toList = [⟨2 ^ 64 - 1, 0, 0, 1⟩] := by
    decide
  have hc : count_records [⟨2 ^ 64 - 1, 0, 0, 1⟩] = ⟨0, 1, 1⟩ := by decide
  have r1 := resize_nil lim.max_entries 1 (SIZE_MOD - 1) (by omega)
  have r2 := resize_nil lim.max_recall_rows 0 ([] : List Bool) (by omega)
  have r3 := resize_nil lim.max_item_rows 0 ([] : List Nat) (by omega)
  simp only [load_dataset, hr, load_records, hc, empty_tables, r1, r2, r3]
  simp [store_records, store_record]

/-! ## The remaining claims about `main` -/

/-- C7. (1) For every `num_items > 0` and every output of the model, in sample
mode: when the list of samples is not empty and every vector has `num_items`
entries, the text written is the concatenation, in list order, of one line per
vector, the entries in decimal joined by single spaces and ended by one
newline, and reading it back (cut at the newlines, then at the spaces, read the
decimals) gives the vectors; when a vector has another length, `main` aborts
having written the lines of the vectors in front of it only; when the list is
empty `main` aborts. In `map_estimate` mode the text is the one line of the MAP
vector, or `main` aborts when its length is not `num_items`. (2) The text
`main` writes is this, with the positive `num_items` of the dataset and the
output of the model. -/
theorem saved_text_format :
    (∀ (num_items : Nat) (m : ModelOutput), 0 < num_items →
      ((m.skill_assignments ≠ [] ∧ ∀ v ∈ m.skill_assignments, v.length = num_items) →
        save false num_items m = SaveResult.saved (spec_text m.skill_assignments) ∧
        parse_saved (spec_text m.skill_assignments) = m.skill_assignments) ∧
      (∀ front v after, m.skill_assignments = front ++ v :: after →
        (∀ x ∈ front, x.length = num_items) → v.length ≠ num_items →
        save false num_items m = SaveResult.assert_failed (spec_text front)) ∧
      (m.skill_assignments = [] → save false num_items m = SaveResult.assert_failed []) ∧
      (m.most_likely_skill_assignments.length = num_items →
        save true num_items m
          = SaveResult.saved (spec_text [m.most_likely_skill_assignments]) ∧
        spec_text [m.most_likely_skill_assignments]
          = spec_line m.most_likely_skill_assignments ∧
        parse_saved (spec_text [m.most_likely_skill_assignments])
          = [m.most_likely_skill_assignments]) ∧
      (m.most_likely_skill_assignments.length ≠ num_items →
        save true num_items m = SaveResult.assert_failed [])) ∧
    (∀ lim core w o ctor mcmc s, main lim core w o = Outcome.model_run ctor mcmc s →
      0 < ctor.num_items ∧ s = save o.map_estimate ctor.num_items (core.run ctor mcmc)) := by
  constructor
  · intro num_items m hpos
    have hne : ∀ vs : List (List Nat), (∀ v ∈ vs, v.length = num_items) → ∀ v ∈ vs, v ≠ [] := by
      intro vs h v hv e
      have := h v hv
      rw [e] at this
      simp at this
      omega
    refine ⟨?_, ?_, ?_, ?_, ?_⟩
    · rintro ⟨hnonempty, hlen⟩
      have he : m.skill_assignments.isEmpty = false := by
        cases hm : m.skill_assignments with
        | nil => exact absurd hm hnonempty
        | cons _ _ => rfl
      refine ⟨?_, parse_saved_spec_text _ (hne _ hlen)⟩
      simp only [save, he, Bool.false_eq_true, if_false]
      rw [write_samples_saved num_items hpos _ [] hlen]
      simp
    · intro front v after hm hfront hv
      have he : m.skill_assignments.isEmpty = false := by
        rw [hm]; cases front <;> rfl
      simp only [save, he, Bool.false_eq_true, if_false]
      rw [hm, write_samples_aborted num_items hpos front v after [] hfront hv]
      simp
    · intro hm
      simp [save, hm]
    · intro hlen
      have hl : spec_text [m.most_likely_skill_assignments]
          = spec_line m.most_likely_skill_assignments := by simp [spec_text]
      refine ⟨?_, hl, parse_saved_spec_text _ (hne _ (by simpa using hlen))⟩
      simp only [save, if_true, hlen]
      rw [write_row_eq_spec_line _ _ hlen hpos, hl]
    · intro hlen
      simp [save, hlen]
  · intro lim core w o ctor mcmc s h
    obtain ⟨_, ia, fa, ib, fb, d, _, _, _, _, _, hi, hc, _, hs⟩ := main_model_run_inv h
    subst hc
    exact ⟨hi, hs⟩

/-- C7, on two samples over three items. -/
theorem saved_text_format_witness :
    save false 3 ⟨[], [[0, 1, 0], [2, 10, 2]]⟩ = SaveResult.saved "0 1 0\n2 10 2\n".toList ∧
    parse_saved "0 1 0\n2 10 2\n".toList = [[0, 1, 0], [2, 10, 2]] :=
  ((saved_text_format.1 3 ⟨[], [[0, 1, 0], [2, 10, 2]]⟩ (by decide)).1
    ⟨by decide, by decide⟩)

end FindSkills
